import Mathlib

/-!
A verification development for the `minimal_goban` Go rules engine.

The source represents points as two-character SGF strings ("aa" is the
0,0 point); here a point is the corresponding pair of integer
coordinates, which the encoding presents bijectively, and the board is a
total function from points to stones, read only through `state_at`,
which performs the same bounds check as the source.  The recursive flood
fills of the source (`has_liberties`, `group_at_recurse`) terminate
because the shared `touched` set grows at every nested call; here they
take an explicit fuel argument, fixed at 362 (one more than the 361
points of the board), and the lemmas below show that with the call
patterns of the source this fuel is never exhausted.
-/

inductive Stone : Type where
  | EMPTY : Stone
  | BLACK : Stone
  | WHITE : Stone
deriving DecidableEq, Repr

open Stone

abbrev Point : Type := Int × Int

abbrev Board : Type := Point → Stone

/-- The game state owned by the engine: the grid, the active player and
the current ko point (`none` when there is no ko). -/
structure GameState : Type where
  board : Board
  player : Stone
  ko : Option Point

/-- `in_bounds` from the source: both coordinates lie in `[0, 19)`. -/
def in_bounds (s : Point) : Prop :=
  0 ≤ s.1 ∧ s.1 < 19 ∧ 0 ≤ s.2 ∧ s.2 < 19

instance (s : Point) : Decidable (in_bounds s) := by
  unfold in_bounds; infer_instance

/-- `state_at` from the source: `EMPTY` out of bounds, else the stored stone. -/
def state_at (b : Board) (s : Point) : Stone :=
  if in_bounds s then b s else EMPTY

/-- `neighbours` from the source: the up-to-4 in-bounds neighbours of an
in-bounds point, pushed in the order `+x`, `-x`, `+y`, `-y`; the empty
list out of bounds. -/
def neighbours (s : Point) : List Point :=
  if in_bounds s then
    (if s.1 < 18 then [(s.1 + 1, s.2)] else []) ++
    (if 0 < s.1 then [(s.1 - 1, s.2)] else []) ++
    (if s.2 < 18 then [(s.1, s.2 + 1)] else []) ++
    (if 0 < s.2 then [(s.1, s.2 - 1)] else [])
  else []

/-- The 361 in-bounds points. -/
def validPts : Finset Point :=
  (Finset.Icc (0 : Int) 18) ×ˢ (Finset.Icc (0 : Int) 18)

/-! ## The recursive liberty search (`has_liberties` in the source)

The source's `has_liberties(s, touched)` marks `s` as touched, then walks
the neighbour list: an untouched empty neighbour is a liberty (return
true); an untouched same-colour neighbour is searched recursively with
the shared, mutated `touched` set.  `hl_go` is the loop over the
neighbour list (threading the touched set exactly as the shared mutable
object does) and `hl_aux` is the recursive function, driven by fuel. -/

def hl_go (b : Board) (rec : Point → Finset Point → Bool × Finset Point)
    (c : Stone) : List Point → Finset Point → Bool × Finset Point
  | [], t => (false, t)
  | n :: rest, t =>
    if n ∈ t then hl_go b rec c rest t
    else if state_at b n = EMPTY then (true, t)
    else if state_at b n = c then
      match rec n t with
      | (true, t2) => (true, t2)
      | (false, t2) => hl_go b rec c rest t2
    else hl_go b rec c rest t

def hl_aux (b : Board) : Nat → Point → Finset Point → Bool × Finset Point
  | 0, _, t => (false, t)
  | f + 1, s, t => hl_go b (hl_aux b f) (state_at b s) (neighbours s) (insert s t)

/-- `has_liberties` from the source; a call without the `touched`
argument corresponds to `touched = ∅` here. -/
def has_liberties (b : Board) (s : Point) (touched : Finset Point) : Bool :=
  (hl_aux b 362 s touched).1

/-! ## The group collector (`group_at` / `group_at_recurse`) -/

def grp_go (b : Board) (rec : Point → Finset Point → Finset Point)
    (c : Stone) : List Point → Finset Point → Finset Point
  | [], t => t
  | n :: rest, t =>
    if n ∈ t then grp_go b rec c rest t
    else if state_at b n = c then grp_go b rec c rest (rec n t)
    else grp_go b rec c rest t

def group_at_recurse (b : Board) : Nat → Point → Finset Point → Finset Point
  | 0, _, t => t
  | f + 1, s, t =>
    grp_go b (group_at_recurse b f) (state_at b s) (neighbours s) (insert s t)

/-- `group_at` from the source: the empty set on an empty cell, else the
set of keys collected by `group_at_recurse`. -/
def group_at (b : Board) (s : Point) : Finset Point :=
  if state_at b s = EMPTY then ∅ else group_at_recurse b 362 s ∅

/-- `destroy_group` from the source: empty every member of the group and
return the number of stones removed. -/
def destroy_group (b : Board) (s : Point) : Board × Nat :=
  (fun q => if q ∈ group_at b s then EMPTY else b q, (group_at b s).card)

/-! ## Legality (`legal_move`) -/

def lm_loop1 (b : Board) : List Point → Bool
  | [] => false
  | n :: rest => if state_at b n = EMPTY then true else lm_loop1 b rest

def lm_loop2 (b : Board) (pl : Stone) (s : Point) : List Point → Bool
  | [] => false
  | n :: rest =>
    if state_at b n = pl then
      if has_liberties b n {s} then true else lm_loop2 b pl s rest
    else if state_at b n ≠ EMPTY then
      if has_liberties b n {s} = false then true else lm_loop2 b pl s rest
    else lm_loop2 b pl s rest

/-- `legal_move` from the source: false if out of bounds, occupied or on
the ko point; otherwise legal iff some neighbour is empty, or a joined
friendly group keeps a liberty besides `s`, or some adjacent enemy group
has no liberty besides `s`. -/
def legal_move (st : GameState) (s : Point) : Bool :=
  if ¬ in_bounds s ∨ state_at st.board s ≠ EMPTY ∨ st.ko = some s then false
  else if lm_loop1 st.board (neighbours s) then true
  else lm_loop2 st.board st.player s (neighbours s)

/-! ## Playing a move (`play`) -/

def next_player (c : Stone) : Stone :=
  if c = BLACK then WHITE else BLACK

def place (b : Board) (s : Point) (c : Stone) : Board :=
  fun q => if q = s then c else b q

def cap_loop (c : Stone) : List Point → Board → Nat → Board × Nat
  | [], b, caps => (b, caps)
  | n :: rest, b, caps =>
    let nc := state_at b n
    if nc ≠ EMPTY ∧ nc ≠ c then
      if has_liberties b n ∅ then cap_loop c rest b caps
      else cap_loop c rest (destroy_group b n).1 (caps + (destroy_group b n).2)
    else cap_loop c rest b caps

def ols_loop (b : Board) (c : Stone) : List Point → Nat → Option Nat
  | [], k => some k
  | n :: rest, k =>
    if state_at b n = c then none
    else if state_at b n = EMPTY then ols_loop b c rest (k + 1)
    else ols_loop b c rest k

/-- `one_liberty_singleton` from the source: the point holds a stone
with no same-colour neighbour and exactly one empty neighbour. -/
def one_liberty_singleton (b : Board) (s : Point) : Bool :=
  let c := state_at b s
  if c = EMPTY then false
  else
    match ols_loop b c (neighbours s) 0 with
    | none => false
    | some k => k == 1

/-- `empty_neighbour` from the source: the first empty neighbour, if any. -/
def empty_neighbour (b : Board) (s : Point) : Option Point :=
  (neighbours s).find? (fun n => state_at b n == EMPTY)

/-- `play` from the source: clear ko and flip the player unconditionally;
out of bounds is a pass; otherwise place the stone, capture adjacent
libertyless enemy groups, remove the placed group if the move was
suicide, and set the ko point after a single-stone capture by a
one-liberty singleton. -/
def play (st : GameState) (s : Point) : GameState :=
  let colour := st.player
  let next := next_player st.player
  if ¬ in_bounds s then { board := st.board, player := next, ko := none }
  else
    let b1 := place st.board s colour
    let r := cap_loop colour (neighbours s) b1 0
    let b2 := r.1
    let caps := r.2
    let b3 := if has_liberties b2 s ∅ then b2 else (destroy_group b2 s).1
    let ko2 :=
      if caps = 1 then
        if one_liberty_singleton b3 s then empty_neighbour b3 s else none
      else none
    { board := b3, player := next, ko := ko2 }

/-- The capture count of `play` (the internal `caps` counter). -/
def play_caps (st : GameState) (s : Point) : Nat :=
  (cap_loop st.player (neighbours s) (place st.board s st.player) 0).2

/-- The state at process start: empty board, Black to move, no ko. -/
def init_state : GameState :=
  { board := fun _ => EMPTY, player := BLACK, ko := none }

/-- States reachable from the initial state by playing legal moves or
passing (the source treats any out-of-bounds point as a pass). -/
inductive Reachable : GameState → Prop where
  | init : Reachable init_state
  | step_play {st : GameState} {p : Point} :
      Reachable st → legal_move st p = true → Reachable (play st p)
  | step_pass {st : GameState} {p : Point} :
      Reachable st → ¬ in_bounds p → Reachable (play st p)

/-- The ko point, when set, is an in-bounds empty point. -/
def KoInv (st : GameState) : Prop :=
  match st.ko with
  | none => True
  | some q => in_bounds q ∧ state_at st.board q = EMPTY

/-! ## Reachability: the semantic meaning of the liberty search

`ReachLib b c avoid s` says: starting from `s` there is a chain of
`c`-coloured cells, none of them in `avoid`, ending at a cell with an
empty neighbour outside `avoid` — i.e. the group of `s` (with the cells
of `avoid` treated as removed) has a liberty outside `avoid`. -/

inductive ReachLib (b : Board) (c : Stone) (avoid : Finset Point) : Point → Prop
  | lib {s q : Point} : q ∈ neighbours s → q ∉ avoid →
      state_at b q = EMPTY → ReachLib b c avoid s
  | step {s n : Point} : n ∈ neighbours s → n ∉ avoid →
      state_at b n = c → ReachLib b c avoid n → ReachLib b c avoid s

/-- Every neighbour of `x` is either already in `T` or is a stone of a
colour other than `c` (so no liberty and no further `c`-expansion is
possible from `x` outside `T`). -/
def libClosedAt (b : Board) (c : Stone) (T : Finset Point) (x : Point) : Prop :=
  ∀ n ∈ neighbours x, n ∈ T ∨ (state_at b n ≠ EMPTY ∧ state_at b n ≠ c)

/-- `b2` is obtained from `b` by emptying some cells (the effect of any
sequence of `destroy_group` calls). -/
def emptied (b b2 : Board) : Prop :=
  ∀ q, state_at b2 q = state_at b q ∨ state_at b2 q = EMPTY

def adjC (b : Board) (c : Stone) (x y : Point) : Prop :=
  y ∈ neighbours x ∧ state_at b y = c

/-- Every same-colour neighbour of `x` is already collected. -/
def grpClosedAt (b : Board) (c : Stone) (T : Finset Point) (x : Point) : Prop :=
  ∀ n ∈ neighbours x, state_at b n = c → n ∈ T

/-! ## Unfolding `play` -/

def play_b1 (st : GameState) (p : Point) : Board :=
  place st.board p st.player

def play_b2 (st : GameState) (p : Point) : Board :=
  (cap_loop st.player (neighbours p) (play_b1 st p) 0).1

def play_b3 (st : GameState) (p : Point) : Board :=
  if has_liberties (play_b2 st p) p ∅ then play_b2 st p
  else (destroy_group (play_b2 st p) p).1

def play_ko_val (st : GameState) (p : Point) : Option Point :=
  if play_caps st p = 1 then
    if one_liberty_singleton (play_b3 st p) p then
      empty_neighbour (play_b3 st p) p
    else none
  else none

/-- A concrete suicide: Black at the (0,0) corner against White stones
on (1,0) and (0,1) captures nothing and self-captures, and is illegal. -/
def bC1 : Board := fun q =>
  if q = ((1 : Int), (0 : Int)) then WHITE
  else if q = ((0 : Int), (1 : Int)) then WHITE
  else EMPTY

def stC1 : GameState := { board := bC1, player := BLACK, ko := none }

/-- The classic single-stone ko position: Black `(1,0)`, `(0,1)`, `(1,2)`
and White `(2,0)`, `(1,1)`, `(3,1)`, `(2,2)`; Black captures the White
stone at `(1,1)` by playing `(2,1)`. -/
def bKo : Board := fun q =>
  if q = ((1 : Int), (0 : Int)) then BLACK
  else if q = ((2 : Int), (0 : Int)) then WHITE
  else if q = ((0 : Int), (1 : Int)) then BLACK
  else if q = ((1 : Int), (1 : Int)) then WHITE
  else if q = ((3 : Int), (1 : Int)) then WHITE
  else if q = ((1 : Int), (2 : Int)) then BLACK
  else if q = ((2 : Int), (2 : Int)) then WHITE
  else EMPTY

def stKo : GameState := { board := bKo, player := BLACK, ko := none }

/-- A horizontal chain of three black stones. -/
def bChain : Board := fun q =>
  if q = ((3 : Int), (3 : Int)) then BLACK
  else if q = ((4 : Int), (3 : Int)) then BLACK
  else if q = ((5 : Int), (3 : Int)) then BLACK
  else EMPTY

/-! ## The `has_liberties` guard of the variant source file -/

namespace PartZero

/-- `has_liberties` as defined in the variant source file
`src/unnamed/part_000`: it returns false outright on an empty point and
otherwise runs the recursive search with a fresh touched set. -/
def has_liberties (b : Board) (s : Point) : Bool :=
  if state_at b s = EMPTY then false
  else (hl_aux b 362 s ∅).1

end PartZero

/-! ## `legal_move` is a pure query

The source functions read the global `board`, `player` and `ko` but
`legal_move` (and the searches it runs) writes none of them: its only
writes go to the locally created `touched` objects.  To state this as a
theorem, the functions are re-embedded below in state-passing style —
every read of the game state goes through `state_atS` and returns the
(possibly updated) state — and the theorems prove that the state coming
out of `legal_moveS` is exactly the state that went in, while the value
computed agrees with the pure `legal_move`. -/

def state_atS (st : GameState) (s : Point) : Stone × GameState :=
  (state_at st.board s, st)

def hl_goS (rec : Point → Finset Point → GameState → (Bool × Finset Point) × GameState)
    (c : Stone) : List Point → Finset Point → GameState → (Bool × Finset Point) × GameState
  | [], t, st => ((false, t), st)
  | n :: rest, t, st =>
    if n ∈ t then hl_goS rec c rest t st
    else
      match state_atS st n with
      | (nc, st1) =>
        if nc = EMPTY then ((true, t), st1)
        else if nc = c then
          match rec n t st1 with
          | ((true, t2), st2) => ((true, t2), st2)
          | ((false, t2), st2) => hl_goS rec c rest t2 st2
        else hl_goS rec c rest t st1

def hl_auxS : Nat → Point → Finset Point → GameState → (Bool × Finset Point) × GameState
  | 0, _, t, st => ((false, t), st)
  | f + 1, s, t, st =>
    match state_atS st s with
    | (c, st1) => hl_goS (hl_auxS f) c (neighbours s) (insert s t) st1

def has_libertiesS (st : GameState) (s : Point) (touched : Finset Point) :
    Bool × GameState :=
  match hl_auxS 362 s touched st with
  | ((r, _), st2) => (r, st2)

def lm_loop1S : List Point → GameState → Bool × GameState
  | [], st => (false, st)
  | n :: rest, st =>
    match state_atS st n with
    | (nc, st1) => if nc = EMPTY then (true, st1) else lm_loop1S rest st1

def lm_loop2S (pl : Stone) (s : Point) : List Point → GameState → Bool × GameState
  | [], st => (false, st)
  | n :: rest, st =>
    match state_atS st n with
    | (nc, st1) =>
      if nc = pl then
        match has_libertiesS st1 n {s} with
        | (true, st2) => (true, st2)
        | (false, st2) => lm_loop2S pl s rest st2
      else if nc ≠ EMPTY then
        match has_libertiesS st1 n {s} with
        | (false, st2) => (true, st2)
        | (true, st2) => lm_loop2S pl s rest st2
      else lm_loop2S pl s rest st1

def legal_moveS (st : GameState) (s : Point) : Bool × GameState :=
  if ¬ in_bounds s ∨ (state_atS st s).1 ≠ EMPTY ∨ st.ko = some s then (false, st)
  else
    match lm_loop1S (neighbours s) st with
    | (true, st1) => (true, st1)
    | (false, st1) => lm_loop2S st1.player s (neighbours s) st1

theorem mem_validPts {s : Point} : s ∈ validPts ↔ in_bounds s := by
  obtain ⟨x, y⟩ := s
  simp only [validPts, Finset.mem_product, Finset.mem_Icc, in_bounds]
  omega

theorem validPts_card : validPts.card = 361 := by
  simp [validPts, Finset.card_product, Int.card_Icc]

theorem state_at_oob {b : Board} {s : Point} (h : ¬ in_bounds s) :
    state_at b s = EMPTY := by
  simp [state_at, h]

theorem state_at_ib {b : Board} {s : Point} (h : in_bounds s) :
    state_at b s = b s := by
  simp [state_at, h]

theorem in_bounds_of_state_ne {b : Board} {s : Point}
    (h : state_at b s ≠ EMPTY) : in_bounds s := by
  by_contra hc
  exact h (state_at_oob hc)

theorem mem_neighbours_iff {s n : Point} :
    n ∈ neighbours s ↔ in_bounds s ∧ in_bounds n ∧
      (n = (s.1 + 1, s.2) ∨ n = (s.1 - 1, s.2) ∨
       n = (s.1, s.2 + 1) ∨ n = (s.1, s.2 - 1)) := by
  obtain ⟨x, y⟩ := s
  obtain ⟨u, v⟩ := n
  simp only [neighbours, in_bounds, Prod.mk.injEq]
  constructor
  · intro h
    split at h
    · simp only [List.mem_append] at h
      rcases h with ((h | h) | h) | h <;> split at h <;>
          simp only [List.mem_singleton, List.not_mem_nil, Prod.mk.injEq] at h <;>
        · obtain ⟨hu, hv⟩ := h
          subst hu
          subst hv
          refine ⟨by omega, by omega, ?_⟩
          omega
    · simp at h
  · rintro ⟨hs, hn, hcase⟩
    rw [if_pos hs]
    simp only [List.mem_append, List.mem_singleton, Prod.mk.injEq]
    rcases hcase with ⟨hu, hv⟩ | ⟨hu, hv⟩ | ⟨hu, hv⟩ | ⟨hu, hv⟩ <;>
      subst hu <;> subst hv <;> split_ifs <;> simp_all <;> omega

theorem in_bounds_of_mem_neighbours {s n : Point} (h : n ∈ neighbours s) :
    in_bounds n :=
  (mem_neighbours_iff.1 h).2.1

theorem mem_validPts_of_mem_neighbours {s n : Point} (h : n ∈ neighbours s) :
    n ∈ validPts :=
  mem_validPts.2 (in_bounds_of_mem_neighbours h)

theorem ne_of_mem_neighbours {s n : Point} (h : n ∈ neighbours s) : n ≠ s := by
  obtain ⟨hs, hn, hcase⟩ := mem_neighbours_iff.1 h
  intro he
  subst he
  rcases hcase with h | h | h | h <;>
    · rw [Prod.ext_iff] at h
      omega

theorem neighbours_symm {s n : Point} (h : n ∈ neighbours s) :
    s ∈ neighbours n := by
  obtain ⟨hs, hn, hcase⟩ := mem_neighbours_iff.1 h
  refine mem_neighbours_iff.2 ⟨hn, hs, ?_⟩
  rcases hcase with h | h | h | h <;>
      simp only [Prod.ext_iff] at h <;> simp only [Prod.ext_iff]
  · exact Or.inr (Or.inl ⟨by omega, by omega⟩)
  · exact Or.inl ⟨by omega, by omega⟩
  · exact Or.inr (Or.inr (Or.inr ⟨by omega, by omega⟩))
  · exact Or.inr (Or.inr (Or.inl ⟨by omega, by omega⟩))

theorem hl_go_nil {b : Board} {rec : Point → Finset Point → Bool × Finset Point}
    {c : Stone} {t : Finset Point} : hl_go b rec c [] t = (false, t) := rfl

theorem hl_go_cons_mem {b : Board} {rec : Point → Finset Point → Bool × Finset Point}
    {c : Stone} {n : Point} {rest : List Point} {t : Finset Point} (hnt : n ∈ t) :
    hl_go b rec c (n :: rest) t = hl_go b rec c rest t := by
  simp only [hl_go]
  rw [if_pos hnt]

theorem hl_go_cons_empty {b : Board} {rec : Point → Finset Point → Bool × Finset Point}
    {c : Stone} {n : Point} {rest : List Point} {t : Finset Point} (hnt : n ∉ t)
    (hne : state_at b n = EMPTY) :
    hl_go b rec c (n :: rest) t = (true, t) := by
  simp only [hl_go]
  rw [if_neg hnt, if_pos hne]

theorem hl_go_cons_rec_true {b : Board} {rec : Point → Finset Point → Bool × Finset Point}
    {c : Stone} {n : Point} {rest : List Point} {t t2 : Finset Point} (hnt : n ∉ t)
    (hne : state_at b n ≠ EMPTY) (hcol : state_at b n = c)
    (hr : rec n t = (true, t2)) :
    hl_go b rec c (n :: rest) t = (true, t2) := by
  simp only [hl_go]
  rw [if_neg hnt, if_neg hne, if_pos hcol, hr]

theorem hl_go_cons_rec_false {b : Board} {rec : Point → Finset Point → Bool × Finset Point}
    {c : Stone} {n : Point} {rest : List Point} {t t2 : Finset Point} (hnt : n ∉ t)
    (hne : state_at b n ≠ EMPTY) (hcol : state_at b n = c)
    (hr : rec n t = (false, t2)) :
    hl_go b rec c (n :: rest) t = hl_go b rec c rest t2 := by
  simp only [hl_go]
  rw [if_neg hnt, if_neg hne, if_pos hcol, hr]

theorem hl_go_cons_other {b : Board} {rec : Point → Finset Point → Bool × Finset Point}
    {c : Stone} {n : Point} {rest : List Point} {t : Finset Point} (hnt : n ∉ t)
    (hne : state_at b n ≠ EMPTY) (hcol : state_at b n ≠ c) :
    hl_go b rec c (n :: rest) t = hl_go b rec c rest t := by
  simp only [hl_go]
  rw [if_neg hnt, if_neg hne, if_neg hcol]

theorem ReachLib.mono {b : Board} {c : Stone} {t t2 : Finset Point} {s : Point}
    (hsub : t ⊆ t2) (h : ReachLib b c t2 s) : ReachLib b c t s := by
  induction h with
  | lib hq hqt hqe => exact ReachLib.lib hq (fun hc => hqt (hsub hc)) hqe
  | step hn hnt hnc _ ih => exact ReachLib.step hn (fun hc => hnt (hsub hc)) hnc ih

/-! ### Growth and colouring of the touched set -/

theorem hl_go_grow {b : Board} {rec : Point → Finset Point → Bool × Finset Point}
    (hrec : ∀ n t, t ⊆ (rec n t).2) (c : Stone) :
    ∀ (l : List Point) (t : Finset Point), t ⊆ (hl_go b rec c l t).2 := by
  intro l
  induction l with
  | nil => intro t; simp [hl_go]
  | cons n rest ih =>
    intro t
    simp only [hl_go]
    split
    · exact ih t
    · split
      · exact Finset.Subset.refl t
      · split
        · have h2 := hrec n t
          rcases hr : rec n t with ⟨b2, t2⟩
          rw [hr] at h2
          cases b2
          · simp only
            exact h2.trans (ih t2)
          · simpa using h2
        · exact ih t

theorem hl_aux_grow (b : Board) :
    ∀ (f : Nat) (s : Point) (t : Finset Point), t ⊆ (hl_aux b f s t).2 := by
  intro f
  induction f with
  | zero => intro s t; simp [hl_aux]
  | succ f ih =>
    intro s t
    simp only [hl_aux]
    exact (Finset.subset_insert s t).trans (hl_go_grow ih _ _ _)

theorem hl_aux_mem {b : Board} {f : Nat} (hf : 1 ≤ f) (s : Point)
    (t : Finset Point) : s ∈ (hl_aux b f s t).2 := by
  obtain ⟨f, rfl⟩ : ∃ g, f = g + 1 := ⟨f - 1, by omega⟩
  simp only [hl_aux]
  exact hl_go_grow (hl_aux_grow b f) _ _ _ (Finset.mem_insert_self s t)

theorem hl_go_colour {b : Board} {rec : Point → Finset Point → Bool × Finset Point}
    {c : Stone}
    (hrec : ∀ n t x, state_at b n = c → x ∈ (rec n t).2 → x ∈ t ∨ state_at b x = c) :
    ∀ (l : List Point) (t : Finset Point) (x : Point),
      x ∈ (hl_go b rec c l t).2 → x ∈ t ∨ state_at b x = c := by
  intro l
  induction l with
  | nil => intro t x hx; simp [hl_go] at hx; exact Or.inl hx
  | cons n rest ih =>
    intro t x hx
    simp only [hl_go] at hx
    split at hx
    · exact ih t x hx
    · split at hx
      · exact Or.inl hx
      · split at hx
        · rcases hr : rec n t with ⟨b2, t2⟩
          rw [hr] at hx
          cases b2
          · simp only at hx
            rcases ih t2 x hx with h | h
            · rcases hrec n t x (by assumption) (by rw [hr]; exact h) with h2 | h2
              · exact Or.inl h2
              · exact Or.inr h2
            · exact Or.inr h
          · simp only at hx
            rcases hrec n t x (by assumption) (by rw [hr]; exact hx) with h2 | h2
            · exact Or.inl h2
            · exact Or.inr h2
        · exact ih t x hx

theorem hl_aux_colour (b : Board) :
    ∀ (f : Nat) (s : Point) (t : Finset Point) (x : Point),
      x ∈ (hl_aux b f s t).2 → x ∈ t ∨ x = s ∨ state_at b x = state_at b s := by
  intro f
  induction f with
  | zero => intro s t x hx; simp [hl_aux] at hx; exact Or.inl hx
  | succ f ih =>
    intro s t x hx
    simp only [hl_aux] at hx
    have step : ∀ n t2 y, state_at b n = state_at b s →
        y ∈ (hl_aux b f n t2).2 → y ∈ t2 ∨ state_at b y = state_at b s := by
      intro n t2 y hn hy
      rcases ih n t2 y hy with h | h | h
      · exact Or.inl h
      · exact Or.inr (h ▸ hn)
      · exact Or.inr (h.trans hn)
    rcases hl_go_colour step _ _ x hx with h | h
    · rcases Finset.mem_insert.1 h with h2 | h2
      · exact Or.inr (Or.inl h2)
      · exact Or.inl h2
    · exact Or.inr (Or.inr h)

/-! ### Soundness: a true result gives a liberty path -/

theorem hl_go_sound {b : Board} {rec : Point → Finset Point → Bool × Finset Point}
    (hgrow : ∀ n t, t ⊆ (rec n t).2)
    {c : Stone} {s : Point}
    (hrec : ∀ n t, state_at b n = c → (rec n t).1 = true → ReachLib b c t n) :
    ∀ (l : List Point) (t : Finset Point), (∀ n ∈ l, n ∈ neighbours s) →
      (hl_go b rec c l t).1 = true → ReachLib b c t s := by
  intro l
  induction l with
  | nil => intro t _ h; simp [hl_go] at h
  | cons n rest ih =>
    intro t hmem h
    have hnbr : n ∈ neighbours s := hmem n (List.mem_cons_self n rest)
    have hrest : ∀ m ∈ rest, m ∈ neighbours s :=
      fun m hm => hmem m (List.mem_cons_of_mem n hm)
    simp only [hl_go] at h
    split at h
    · exact ih t hrest h
    · rename_i hnt
      split at h
      · exact ReachLib.lib hnbr hnt (by assumption)
      · split at h
        · rename_i hcol
          rcases hr : rec n t with ⟨b2, t2⟩
          rw [hr] at h
          cases b2
          · simp only at h
            have h2 := ih t2 hrest h
            exact h2.mono (hgrow n t |>.trans (by rw [hr]))
          · exact ReachLib.step hnbr hnt hcol
              (hrec n t hcol (by rw [hr]))
        · exact ih t hrest h

theorem hl_aux_sound (b : Board) :
    ∀ (f : Nat) (s : Point) (t : Finset Point),
      (hl_aux b f s t).1 = true → ReachLib b (state_at b s) t s := by
  intro f
  induction f with
  | zero => intro s t h; simp [hl_aux] at h
  | succ f ih =>
    intro s t h
    simp only [hl_aux] at h
    have hrec : ∀ n t2, state_at b n = state_at b s →
        (hl_aux b f n t2).1 = true → ReachLib b (state_at b s) t2 n := by
      intro n t2 hn h2
      exact hn ▸ ih n t2 h2
    have h2 := hl_go_sound (hl_aux_grow b f) hrec (neighbours s) (insert s t)
      (fun n hn => hn) h
    exact h2.mono (Finset.subset_insert s t)

/-! ### Completeness: a false result means the explored set is closed -/

theorem libClosedAt_mono {b : Board} {c : Stone} {T T2 : Finset Point} {x : Point}
    (hsub : T ⊆ T2) (h : libClosedAt b c T x) : libClosedAt b c T2 x := by
  intro n hn
  rcases h n hn with h2 | h2
  · exact Or.inl (hsub h2)
  · exact Or.inr h2

theorem hl_go_closed {b : Board} {rec : Point → Finset Point → Bool × Finset Point}
    {c : Stone} (f : Nat)
    (hgrow : ∀ n t, t ⊆ (rec n t).2)
    (hmem : ∀ n t, (validPts \ t).card < f → n ∈ (rec n t).2)
    (hclosed : ∀ n t, n ∈ validPts → n ∉ t → (validPts \ t).card < f →
      state_at b n = c → (rec n t).1 = false →
      ∀ x ∈ (rec n t).2, x ∉ t → libClosedAt b c (rec n t).2 x) :
    ∀ (l : List Point) (t : Finset Point),
      (∀ n ∈ l, n ∈ validPts) →
      (validPts \ t).card < f →
      (hl_go b rec c l t).1 = false →
      (∀ n ∈ l, n ∈ (hl_go b rec c l t).2 ∨
        (state_at b n ≠ EMPTY ∧ state_at b n ≠ c)) ∧
      (∀ x ∈ (hl_go b rec c l t).2, x ∉ t →
        libClosedAt b c (hl_go b rec c l t).2 x) := by
  intro l
  induction l with
  | nil =>
    intro t _ _ _
    refine ⟨by simp, ?_⟩
    intro x hx hxt
    simp only [hl_go] at hx
    exact absurd hx hxt
  | cons n rest ih =>
    intro t hvalid hcard hfalse
    have hvrest : ∀ m ∈ rest, m ∈ validPts :=
      fun m hm => hvalid m (List.mem_cons_of_mem n hm)
    have hvn : n ∈ validPts := hvalid n (List.mem_cons_self n rest)
    by_cases hnt : n ∈ t
    · rw [hl_go_cons_mem hnt] at hfalse ⊢
      obtain ⟨ha, hb⟩ := ih t hvrest hcard hfalse
      refine ⟨?_, hb⟩
      intro m hm
      rcases List.mem_cons.1 hm with rfl | hm2
      · exact Or.inl (hl_go_grow hgrow c rest t hnt)
      · exact ha m hm2
    · by_cases hne : state_at b n = EMPTY
      · rw [hl_go_cons_empty hnt hne] at hfalse
        simp at hfalse
      · by_cases hcol : state_at b n = c
        · rcases hr : rec n t with ⟨r, t2⟩
          cases r
          · rw [hl_go_cons_rec_false hnt hne hcol hr] at hfalse ⊢
            have hsub : t ⊆ t2 := by
              have h2 := hgrow n t
              rw [hr] at h2
              exact h2
            have hcard2 : (validPts \ t2).card < f :=
              lt_of_le_of_lt
                (Finset.card_le_card
                  (Finset.sdiff_subset_sdiff (Finset.Subset.refl _) hsub)) hcard
            obtain ⟨ha, hb⟩ := ih t2 hvrest hcard2 hfalse
            have hrecmem : n ∈ t2 := by
              have h2 := hmem n t hcard
              rw [hr] at h2
              exact h2
            refine ⟨?_, ?_⟩
            · intro m hm
              rcases List.mem_cons.1 hm with rfl | hm2
              · exact Or.inl (hl_go_grow hgrow c rest t2 hrecmem)
              · exact ha m hm2
            · intro x hx hxt
              by_cases hx2 : x ∈ t2
              · have hcl := hclosed n t hvn hnt hcard hcol (by rw [hr])
                have hclx := hcl x (by rw [hr]; exact hx2) hxt
                rw [hr] at hclx
                exact libClosedAt_mono (hl_go_grow hgrow c rest t2) hclx
              · exact hb x hx hx2
          · rw [hl_go_cons_rec_true hnt hne hcol hr] at hfalse
            simp at hfalse
        · rw [hl_go_cons_other hnt hne hcol] at hfalse ⊢
          obtain ⟨ha, hb⟩ := ih t hvrest hcard hfalse
          refine ⟨?_, hb⟩
          intro m hm
          rcases List.mem_cons.1 hm with rfl | hm2
          · exact Or.inr ⟨hne, hcol⟩
          · exact ha m hm2

theorem hl_aux_closed (b : Board) :
    ∀ (f : Nat) (s : Point) (t : Finset Point), s ∈ validPts → s ∉ t →
      (validPts \ t).card < f → (hl_aux b f s t).1 = false →
      ∀ x ∈ (hl_aux b f s t).2, x ∉ t →
        libClosedAt b (state_at b s) (hl_aux b f s t).2 x := by
  intro f
  induction f with
  | zero =>
    intro s t _ _ hcard _
    omega
  | succ f ih =>
    intro s t hsv hst hcard hfalse x hx hxt
    have hsd : s ∈ validPts \ t := Finset.mem_sdiff.2 ⟨hsv, hst⟩
    have hcard2 : (validPts \ insert s t).card < f := by
      rw [Finset.sdiff_insert]
      have h2 := Finset.card_erase_of_mem hsd
      have h3 : 1 ≤ (validPts \ t).card := Finset.card_pos.2 ⟨s, hsd⟩
      omega
    simp only [hl_aux] at hfalse hx ⊢
    have hclosed2 : ∀ n t2, n ∈ validPts → n ∉ t2 → (validPts \ t2).card < f →
        state_at b n = state_at b s → (hl_aux b f n t2).1 = false →
        ∀ y ∈ (hl_aux b f n t2).2, y ∉ t2 →
          libClosedAt b (state_at b s) (hl_aux b f n t2).2 y := by
      intro n t2 hn hnt hc2 hstate hf2 y hy hyt
      exact hstate ▸ ih n t2 hn hnt hc2 hf2 y hy hyt
    have hmem2 : ∀ (n : Point) (t2 : Finset Point),
        (validPts \ t2).card < f → n ∈ (hl_aux b f n t2).2 := by
      intro n t2 hc2
      exact hl_aux_mem (by omega) n t2
    obtain ⟨ha, hb⟩ := hl_go_closed f (hl_aux_grow b f) hmem2 hclosed2
      (neighbours s) (insert s t)
      (fun n hn => mem_validPts_of_mem_neighbours hn) hcard2 hfalse
    by_cases hxs : x = s
    · subst hxs
      intro n hn
      exact ha n hn
    · exact hb x hx (by simp [Finset.mem_insert, hxs, hxt])

theorem hl_aux_false_noreach (b : Board) (f : Nat) (s : Point) (t : Finset Point)
    (hsv : s ∈ validPts) (hst : s ∉ t) (hcard : (validPts \ t).card < f)
    (hse : state_at b s ≠ EMPTY) (hfalse : (hl_aux b f s t).1 = false) :
    ¬ ReachLib b (state_at b s) t s := by
  intro hreach
  have hf1 : 1 ≤ f := by omega
  have key : ∀ x, ReachLib b (state_at b s) t x →
      x ∈ (hl_aux b f s t).2 → x ∉ t → False := by
    intro x hr
    induction hr with
    | lib hq hqt hqe =>
      intro hxT hxt
      rename_i x q
      rcases hl_aux_closed b f s t hsv hst hcard hfalse x hxT hxt q hq with h | h
      · rcases hl_aux_colour b f s t q h with h2 | h2 | h2
        · exact hqt h2
        · exact hse (h2 ▸ hqe)
        · rw [hqe] at h2
          exact hse h2.symm
      · exact h.1 hqe
    | step hn hnt hnc _ ihstep =>
      intro hxT hxt
      rename_i x m _
      rcases hl_aux_closed b f s t hsv hst hcard hfalse x hxT hxt m hn with h | h
      · exact ihstep h hnt
      · exact h.2 hnc
  exact key s hreach (hl_aux_mem hf1 s t) hst

theorem card_sdiff_validPts_lt (t : Finset Point) : (validPts \ t).card < 362 := by
  have h := Finset.card_le_card (Finset.sdiff_subset : validPts \ t ⊆ validPts)
  rw [validPts_card] at h
  omega

/-- The liberty search is correct: on a stone `s` not in the seed set, it
returns true exactly when the group of `s` (searching around `touched`)
reaches a liberty outside `touched`. -/
theorem has_liberties_iff {b : Board} {s : Point} {t : Finset Point}
    (hse : state_at b s ≠ EMPTY) (hst : s ∉ t) :
    has_liberties b s t = true ↔ ReachLib b (state_at b s) t s := by
  constructor
  · exact hl_aux_sound b 362 s t
  · intro hr
    by_contra h
    have hfalse : (hl_aux b 362 s t).1 = false := by
      rcases Bool.eq_false_or_eq_true (hl_aux b 362 s t).1 with h2 | h2
      · exact absurd (show has_liberties b s t = true from h2) h
      · exact h2
    exact hl_aux_false_noreach b 362 s t
      (mem_validPts.2 (in_bounds_of_state_ne hse)) hst
      (card_sdiff_validPts_lt t) hse hfalse hr

/-! ### Transferring liberty paths between boards -/

theorem state_at_place_self {b : Board} {s : Point} {c : Stone}
    (hs : in_bounds s) : state_at (place b s c) s = c := by
  simp [state_at, place, hs]

theorem state_at_place_ne {b : Board} {s q : Point} {c : Stone}
    (hq : q ≠ s) : state_at (place b s c) q = state_at b q := by
  simp [state_at, place, hq]

theorem emptied_refl (b : Board) : emptied b b := fun _ => Or.inl rfl

theorem emptied_trans {b b2 b3 : Board} (h1 : emptied b b2)
    (h2 : emptied b2 b3) : emptied b b3 := by
  intro q
  rcases h2 q with h | h
  · rw [h]
    exact h1 q
  · exact Or.inr h

/-- Emptying cells never removes a liberty path: either the path
survives, or its first emptied cell has become a liberty itself. -/
theorem ReachLib.of_emptied {b b2 : Board} {c : Stone} {s : Point}
    (he : emptied b b2) (h : ReachLib b c ∅ s) : ReachLib b2 c ∅ s := by
  induction h with
  | lib hq hqt hqe =>
    rename_i x q
    rcases he q with h2 | h2
    · exact ReachLib.lib hq hqt (h2.trans hqe)
    · exact ReachLib.lib hq hqt h2
  | step hn hnt hnc _ ih =>
    rename_i x m _
    rcases he m with h2 | h2
    · exact ReachLib.step hn hnt (h2.trans hnc) ih
    · exact ReachLib.lib hn hnt h2

/-- On the board with the mover's stone placed at `p`, an enemy chain has
a liberty iff the search on the old board that treats `p` as already
occupied finds one. -/
theorem reachlib_place_enemy {b : Board} {p n : Point} {c e : Stone}
    (hc : c ≠ EMPTY) (hec : e ≠ c) :
    (ReachLib b e {p} n ↔ ReachLib (place b p c) e ∅ n) := by
  constructor
  · intro h
    induction h with
    | lib hq hqt hqe =>
      rename_i x q
      have hqp : q ≠ p := by simpa using hqt
      exact ReachLib.lib hq (by simp) ((state_at_place_ne hqp).trans hqe)
    | step hn hnt hnc _ ih =>
      rename_i x m _
      have hmp : m ≠ p := by simpa using hnt
      exact ReachLib.step hn (by simp) ((state_at_place_ne hmp).trans hnc) ih
  · intro h
    induction h with
    | lib hq hqt hqe =>
      rename_i x q
      have hqp : q ≠ p := by
        intro he2
        subst he2
        by_cases hpb : in_bounds q
        · rw [state_at_place_self hpb] at hqe
          exact hc hqe
        · exact hpb (in_bounds_of_mem_neighbours hq)
      rw [state_at_place_ne hqp] at hqe
      exact ReachLib.lib hq (by simpa using hqp) hqe
    | step hn hnt hnc _ ih =>
      rename_i x m _
      have hmp : m ≠ p := by
        intro he2
        subst he2
        by_cases hpb : in_bounds m
        · rw [state_at_place_self hpb] at hnc
          exact hec hnc.symm
        · exact hpb (in_bounds_of_mem_neighbours hn)
      rw [state_at_place_ne hmp] at hnc
      exact ReachLib.step hn (by simpa using hmp) hnc ih

/-- A liberty of a friendly neighbouring chain (other than `p` itself)
is a liberty of the merged chain once the stone is placed at `p`. -/
theorem reachlib_place_friendly {b : Board} {p n : Point} {c : Stone}
    (hn : n ∈ neighbours p) (hnc : state_at b n = c)
    (h : ReachLib b c {p} n) : ReachLib (place b p c) c ∅ p := by
  have htrans : ReachLib (place b p c) c ∅ n := by
    clear hn hnc
    induction h with
    | lib hq hqt hqe =>
      rename_i x q
      have hqp : q ≠ p := by simpa using hqt
      exact ReachLib.lib hq (by simp) ((state_at_place_ne hqp).trans hqe)
    | step hm hmt hmc _ ih =>
      rename_i x m _
      have hmp : m ≠ p := by simpa using hmt
      exact ReachLib.step hm (by simp) ((state_at_place_ne hmp).trans hmc) ih
  have hnp : n ≠ p := ne_of_mem_neighbours hn
  exact ReachLib.step hn (by simp) ((state_at_place_ne hnp).trans hnc) htrans

/-- An empty neighbour of `p` is a liberty of the placed stone. -/
theorem reachlib_place_lib {b : Board} {p q : Point} {c : Stone}
    (hq : q ∈ neighbours p) (hqe : state_at b q = EMPTY) :
    ReachLib (place b p c) c ∅ p := by
  have hqp : q ≠ p := ne_of_mem_neighbours hq
  exact ReachLib.lib hq (by simp) ((state_at_place_ne hqp).trans hqe)

/-! ## Correctness of the group collector

`adjC b c x y` is one step of same-colour 4-adjacency; its reflexive
transitive closure from a stone `s` is the connected component that
`group_at` must collect. -/

theorem grp_go_nil {b : Board} {rec : Point → Finset Point → Finset Point}
    {c : Stone} {t : Finset Point} : grp_go b rec c [] t = t := rfl

theorem grp_go_cons_mem {b : Board} {rec : Point → Finset Point → Finset Point}
    {c : Stone} {n : Point} {rest : List Point} {t : Finset Point} (hnt : n ∈ t) :
    grp_go b rec c (n :: rest) t = grp_go b rec c rest t := by
  simp only [grp_go]
  rw [if_pos hnt]

theorem grp_go_cons_col {b : Board} {rec : Point → Finset Point → Finset Point}
    {c : Stone} {n : Point} {rest : List Point} {t : Finset Point} (hnt : n ∉ t)
    (hcol : state_at b n = c) :
    grp_go b rec c (n :: rest) t = grp_go b rec c rest (rec n t) := by
  simp only [grp_go]
  rw [if_neg hnt, if_pos hcol]

theorem grp_go_cons_other {b : Board} {rec : Point → Finset Point → Finset Point}
    {c : Stone} {n : Point} {rest : List Point} {t : Finset Point} (hnt : n ∉ t)
    (hcol : state_at b n ≠ c) :
    grp_go b rec c (n :: rest) t = grp_go b rec c rest t := by
  simp only [grp_go]
  rw [if_neg hnt, if_neg hcol]

theorem grp_go_grow {b : Board} {rec : Point → Finset Point → Finset Point}
    (hgrow : ∀ n t, t ⊆ rec n t) (c : Stone) :
    ∀ (l : List Point) (t : Finset Point), t ⊆ grp_go b rec c l t := by
  intro l
  induction l with
  | nil => intro t; simp [grp_go]
  | cons n rest ih =>
    intro t
    by_cases hnt : n ∈ t
    · rw [grp_go_cons_mem hnt]
      exact ih t
    · by_cases hcol : state_at b n = c
      · rw [grp_go_cons_col hnt hcol]
        exact (hgrow n t).trans (ih _)
      · rw [grp_go_cons_other hnt hcol]
        exact ih t

theorem grp_aux_grow (b : Board) :
    ∀ (f : Nat) (s : Point) (t : Finset Point), t ⊆ group_at_recurse b f s t := by
  intro f
  induction f with
  | zero => intro s t; simp [group_at_recurse]
  | succ f ih =>
    intro s t
    simp only [group_at_recurse]
    exact (Finset.subset_insert s t).trans (grp_go_grow ih _ _ _)

theorem grp_aux_mem {b : Board} {f : Nat} (hf : 1 ≤ f) (s : Point)
    (t : Finset Point) : s ∈ group_at_recurse b f s t := by
  obtain ⟨f, rfl⟩ : ∃ g, f = g + 1 := ⟨f - 1, by omega⟩
  simp only [group_at_recurse]
  exact grp_go_grow (grp_aux_grow b f) _ _ _ (Finset.mem_insert_self s t)

theorem grp_go_sound {b : Board} {rec : Point → Finset Point → Finset Point}
    {c : Stone} {s : Point}
    (hrec : ∀ n t x, state_at b n = c → x ∈ rec n t →
      x ∈ t ∨ Relation.ReflTransGen (adjC b c) n x) :
    ∀ (l : List Point) (t : Finset Point), (∀ n ∈ l, n ∈ neighbours s) →
      ∀ x, x ∈ grp_go b rec c l t →
        x ∈ t ∨ Relation.ReflTransGen (adjC b c) s x := by
  intro l
  induction l with
  | nil => intro t _ x hx; exact Or.inl hx
  | cons n rest ih =>
    intro t hmem x hx
    have hnbr : n ∈ neighbours s := hmem n (List.mem_cons_self n rest)
    have hrest : ∀ m ∈ rest, m ∈ neighbours s :=
      fun m hm => hmem m (List.mem_cons_of_mem n hm)
    by_cases hnt : n ∈ t
    · rw [grp_go_cons_mem hnt] at hx
      exact ih t hrest x hx
    · by_cases hcol : state_at b n = c
      · rw [grp_go_cons_col hnt hcol] at hx
        rcases ih _ hrest x hx with h | h
        · rcases hrec n t x hcol h with h2 | h2
          · exact Or.inl h2
          · exact Or.inr (Relation.ReflTransGen.head ⟨hnbr, hcol⟩ h2)
        · exact Or.inr h
      · rw [grp_go_cons_other hnt hcol] at hx
        exact ih t hrest x hx

theorem grp_aux_sound (b : Board) :
    ∀ (f : Nat) (s : Point) (t : Finset Point) (x : Point),
      x ∈ group_at_recurse b f s t →
      x ∈ t ∨ Relation.ReflTransGen (adjC b (state_at b s)) s x := by
  intro f
  induction f with
  | zero => intro s t x hx; exact Or.inl hx
  | succ f ih =>
    intro s t x hx
    simp only [group_at_recurse] at hx
    have hrec : ∀ n t2 y, state_at b n = state_at b s →
        y ∈ group_at_recurse b f n t2 →
        y ∈ t2 ∨ Relation.ReflTransGen (adjC b (state_at b s)) n y := by
      intro n t2 y hn hy
      rcases ih n t2 y hy with h | h
      · exact Or.inl h
      · rw [hn] at h
        exact Or.inr h
    rcases grp_go_sound hrec (neighbours s) (insert s t) (fun n hn => hn) x hx
        with h | h
    · rcases Finset.mem_insert.1 h with h2 | h2
      · exact Or.inr (h2 ▸ Relation.ReflTransGen.refl)
      · exact Or.inl h2
    · exact Or.inr h

theorem grpClosedAt_mono {b : Board} {c : Stone} {T T2 : Finset Point} {x : Point}
    (hsub : T ⊆ T2) (h : grpClosedAt b c T x) : grpClosedAt b c T2 x :=
  fun n hn hc => hsub (h n hn hc)

theorem grp_go_closed {b : Board} {rec : Point → Finset Point → Finset Point}
    {c : Stone} (f : Nat)
    (hgrow : ∀ n t, t ⊆ rec n t)
    (hmem : ∀ n t, (validPts \ t).card < f → n ∈ rec n t)
    (hclosed : ∀ n t, n ∈ validPts → n ∉ t → (validPts \ t).card < f →
      state_at b n = c →
      ∀ x ∈ rec n t, x ∉ t → grpClosedAt b c (rec n t) x) :
    ∀ (l : List Point) (t : Finset Point),
      (∀ n ∈ l, n ∈ validPts) →
      (validPts \ t).card < f →
      (∀ n ∈ l, state_at b n = c → n ∈ grp_go b rec c l t) ∧
      (∀ x ∈ grp_go b rec c l t, x ∉ t → grpClosedAt b c (grp_go b rec c l t) x) := by
  intro l
  induction l with
  | nil =>
    intro t _ _
    refine ⟨by simp, ?_⟩
    intro x hx hxt
    exact absurd hx hxt
  | cons n rest ih =>
    intro t hvalid hcard
    have hvrest : ∀ m ∈ rest, m ∈ validPts :=
      fun m hm => hvalid m (List.mem_cons_of_mem n hm)
    have hvn : n ∈ validPts := hvalid n (List.mem_cons_self n rest)
    by_cases hnt : n ∈ t
    · rw [grp_go_cons_mem hnt]
      obtain ⟨ha, hb⟩ := ih t hvrest hcard
      refine ⟨?_, hb⟩
      intro m hm hmc
      rcases List.mem_cons.1 hm with rfl | hm2
      · exact grp_go_grow hgrow c rest t hnt
      · exact ha m hm2 hmc
    · by_cases hcol : state_at b n = c
      · rw [grp_go_cons_col hnt hcol]
        have hsub : t ⊆ rec n t := hgrow n t
        have hcard2 : (validPts \ rec n t).card < f :=
          lt_of_le_of_lt
            (Finset.card_le_card
              (Finset.sdiff_subset_sdiff (Finset.Subset.refl _) hsub)) hcard
        obtain ⟨ha, hb⟩ := ih (rec n t) hvrest hcard2
        have hrecmem : n ∈ rec n t := hmem n t hcard
        refine ⟨?_, ?_⟩
        · intro m hm hmc
          rcases List.mem_cons.1 hm with rfl | hm2
          · exact grp_go_grow hgrow c rest _ hrecmem
          · exact ha m hm2 hmc
        · intro x hx hxt
          by_cases hx2 : x ∈ rec n t
          · have hclx := hclosed n t hvn hnt hcard hcol x hx2 hxt
            exact grpClosedAt_mono (grp_go_grow hgrow c rest (rec n t)) hclx
          · exact hb x hx hx2
      · rw [grp_go_cons_other hnt hcol]
        obtain ⟨ha, hb⟩ := ih t hvrest hcard
        refine ⟨?_, hb⟩
        intro m hm hmc
        rcases List.mem_cons.1 hm with rfl | hm2
        · exact absurd hmc hcol
        · exact ha m hm2 hmc

theorem grp_aux_closed (b : Board) :
    ∀ (f : Nat) (s : Point) (t : Finset Point), s ∈ validPts → s ∉ t →
      (validPts \ t).card < f →
      ∀ x ∈ group_at_recurse b f s t, x ∉ t →
        grpClosedAt b (state_at b s) (group_at_recurse b f s t) x := by
  intro f
  induction f with
  | zero =>
    intro s t _ _ hcard
    omega
  | succ f ih =>
    intro s t hsv hst hcard x hx hxt
    have hsd : s ∈ validPts \ t := Finset.mem_sdiff.2 ⟨hsv, hst⟩
    have hcard2 : (validPts \ insert s t).card < f := by
      rw [Finset.sdiff_insert]
      have h2 := Finset.card_erase_of_mem hsd
      have h3 : 1 ≤ (validPts \ t).card := Finset.card_pos.2 ⟨s, hsd⟩
      omega
    simp only [group_at_recurse] at hx ⊢
    have hclosed2 : ∀ n t2, n ∈ validPts → n ∉ t2 → (validPts \ t2).card < f →
        state_at b n = state_at b s →
        ∀ y ∈ group_at_recurse b f n t2, y ∉ t2 →
          grpClosedAt b (state_at b s) (group_at_recurse b f n t2) y := by
      intro n t2 hn hnt hc2 hstate y hy hyt
      exact hstate ▸ ih n t2 hn hnt hc2 y hy hyt
    have hmem2 : ∀ (n : Point) (t2 : Finset Point),
        (validPts \ t2).card < f → n ∈ group_at_recurse b f n t2 := by
      intro n t2 hc2
      exact grp_aux_mem (by omega) n t2
    obtain ⟨ha, hb⟩ := grp_go_closed f (grp_aux_grow b f) hmem2 hclosed2
      (neighbours s) (insert s t)
      (fun n hn => mem_validPts_of_mem_neighbours hn) hcard2
    by_cases hxs : x = s
    · subst hxs
      intro n hn hnc
      exact ha n hn hnc
    · exact hb x hx (by simp [Finset.mem_insert, hxs, hxt])

theorem grp_aux_complete (b : Board) (s : Point) (hsv : s ∈ validPts) :
    ∀ x, Relation.ReflTransGen (adjC b (state_at b s)) s x →
      x ∈ group_at_recurse b 362 s ∅ := by
  intro x hx
  induction hx with
  | refl => exact grp_aux_mem (by omega) s ∅
  | tail hpath hstep ih =>
    rename_i y z
    obtain ⟨hznbr, hzc⟩ := hstep
    exact grp_aux_closed b 362 s ∅ hsv (by simp)
      (card_sdiff_validPts_lt ∅) y ih (by simp) z hznbr hzc

/-- `group_at` collects exactly the same-colour component of its seed. -/
theorem group_at_iff {b : Board} {s : Point} (hse : state_at b s ≠ EMPTY) :
    ∀ x, x ∈ group_at b s ↔
      Relation.ReflTransGen (adjC b (state_at b s)) s x := by
  intro x
  rw [group_at, if_neg hse]
  constructor
  · intro hx
    rcases grp_aux_sound b 362 s ∅ x hx with h | h
    · exact absurd h (by simp)
    · exact h
  · exact grp_aux_complete b s (mem_validPts.2 (in_bounds_of_state_ne hse)) x

theorem reach_colour {b : Board} {c : Stone} {s x : Point}
    (h : Relation.ReflTransGen (adjC b c) s x) : x = s ∨ state_at b x = c := by
  induction h with
  | refl => exact Or.inl rfl
  | tail _ hstep _ => exact Or.inr hstep.2

theorem reach_symm {b : Board} {c : Stone} {s x : Point}
    (hs : state_at b s = c) (h : Relation.ReflTransGen (adjC b c) s x) :
    Relation.ReflTransGen (adjC b c) x s := by
  induction h with
  | refl => exact Relation.ReflTransGen.refl
  | tail hpath hstep ih =>
    rename_i y z
    have hyc : state_at b y = c := by
      rcases reach_colour hpath with h2 | h2
      · exact h2 ▸ hs
      · exact h2
    exact Relation.ReflTransGen.head ⟨neighbours_symm hstep.1, hyc⟩ ih

theorem group_at_empty {b : Board} {s : Point} (hse : state_at b s = EMPTY) :
    group_at b s = ∅ := by
  rw [group_at, if_pos hse]

theorem mem_group_self {b : Board} {s : Point} (hse : state_at b s ≠ EMPTY) :
    s ∈ group_at b s :=
  (group_at_iff hse s).2 Relation.ReflTransGen.refl

theorem group_colour {b : Board} {s : Point} :
    ∀ x ∈ group_at b s, state_at b x = state_at b s := by
  intro x hx
  by_cases hse : state_at b s = EMPTY
  · rw [group_at_empty hse] at hx
    exact absurd hx (by simp)
  · rcases reach_colour ((group_at_iff hse x).1 hx) with h | h
    · rw [h]
    · exact h

/-! ## Destroying groups and the capture loop of `play` -/

theorem state_at_destroy_mem {b : Board} {s q : Point}
    (hq : q ∈ group_at b s) : state_at (destroy_group b s).1 q = EMPTY := by
  simp [destroy_group, state_at, hq]

theorem state_at_destroy_not_mem {b : Board} {s q : Point}
    (hq : q ∉ group_at b s) : state_at (destroy_group b s).1 q = state_at b q := by
  simp [destroy_group, state_at, hq]

theorem emptied_destroy (b : Board) (s : Point) :
    emptied b (destroy_group b s).1 := by
  intro q
  by_cases hq : q ∈ group_at b s
  · exact Or.inr (state_at_destroy_mem hq)
  · exact Or.inl (state_at_destroy_not_mem hq)

theorem destroy_card_pos {b : Board} {s : Point} (hse : state_at b s ≠ EMPTY) :
    1 ≤ (destroy_group b s).2 := by
  simp only [destroy_group]
  exact Finset.card_pos.2 ⟨s, mem_group_self hse⟩

theorem has_liberties_sound {b : Board} {s : Point}
    (h : has_liberties b s ∅ = true) : ReachLib b (state_at b s) ∅ s :=
  hl_aux_sound b 362 s ∅ h

theorem has_liberties_of_reach {b : Board} {s : Point}
    (hse : state_at b s ≠ EMPTY) (h : ReachLib b (state_at b s) ∅ s) :
    has_liberties b s ∅ = true :=
  (has_liberties_iff hse (by simp)).2 h

theorem cap_loop_nil {c : Stone} {b : Board} {k : Nat} :
    cap_loop c [] b k = (b, k) := rfl

theorem cap_loop_cons_other {c : Stone} {b : Board} {k : Nat} {n : Point}
    {rest : List Point} (h : ¬ (state_at b n ≠ EMPTY ∧ state_at b n ≠ c)) :
    cap_loop c (n :: rest) b k = cap_loop c rest b k := by
  simp only [cap_loop]
  rw [if_neg h]

theorem cap_loop_cons_lib {c : Stone} {b : Board} {k : Nat} {n : Point}
    {rest : List Point} (h : state_at b n ≠ EMPTY ∧ state_at b n ≠ c)
    (hl : has_liberties b n ∅ = true) :
    cap_loop c (n :: rest) b k = cap_loop c rest b k := by
  simp only [cap_loop]
  rw [if_pos h, if_pos hl]

theorem cap_loop_cons_cap {c : Stone} {b : Board} {k : Nat} {n : Point}
    {rest : List Point} (h : state_at b n ≠ EMPTY ∧ state_at b n ≠ c)
    (hl : has_liberties b n ∅ = false) :
    cap_loop c (n :: rest) b k =
      cap_loop c rest (destroy_group b n).1 (k + (destroy_group b n).2) := by
  simp only [cap_loop]
  rw [if_pos h, if_neg (by simp [hl])]

theorem cap_loop_emptied (c : Stone) :
    ∀ (l : List Point) (b : Board) (k : Nat), emptied b (cap_loop c l b k).1 := by
  intro l
  induction l with
  | nil => intro b k; exact emptied_refl b
  | cons n rest ih =>
    intro b k
    by_cases h : state_at b n ≠ EMPTY ∧ state_at b n ≠ c
    · rcases (Bool.eq_false_or_eq_true (has_liberties b n ∅)).symm with hl | hl
      · rw [cap_loop_cons_cap h hl]
        exact emptied_trans (emptied_destroy b n) (ih _ _)
      · rw [cap_loop_cons_lib h hl]
        exact ih b k
    · rw [cap_loop_cons_other h]
      exact ih b k

theorem cap_loop_caps_le (c : Stone) :
    ∀ (l : List Point) (b : Board) (k : Nat), k ≤ (cap_loop c l b k).2 := by
  intro l
  induction l with
  | nil => intro b k; exact Nat.le_refl k
  | cons n rest ih =>
    intro b k
    by_cases h : state_at b n ≠ EMPTY ∧ state_at b n ≠ c
    · rcases (Bool.eq_false_or_eq_true (has_liberties b n ∅)).symm with hl | hl
      · rw [cap_loop_cons_cap h hl]
        exact le_trans (Nat.le_add_right k _) (ih _ _)
      · rw [cap_loop_cons_lib h hl]
        exact ih b k
    · rw [cap_loop_cons_other h]
      exact ih b k

theorem cap_loop_caps_eq (c : Stone) :
    ∀ (l : List Point) (b : Board) (k : Nat), (cap_loop c l b k).2 = k →
      (cap_loop c l b k).1 = b ∧
      ∀ n ∈ l, state_at b n ≠ EMPTY → state_at b n ≠ c →
        has_liberties b n ∅ = true := by
  intro l
  induction l with
  | nil => intro b k _; exact ⟨rfl, by simp⟩
  | cons n rest ih =>
    intro b k hk
    by_cases h : state_at b n ≠ EMPTY ∧ state_at b n ≠ c
    · rcases (Bool.eq_false_or_eq_true (has_liberties b n ∅)).symm with hl | hl
      · rw [cap_loop_cons_cap h hl] at hk
        have h1 := cap_loop_caps_le c rest (destroy_group b n).1
          (k + (destroy_group b n).2)
        have h2 := destroy_card_pos h.1
        omega
      · rw [cap_loop_cons_lib h hl] at hk ⊢
        obtain ⟨hb, hrest⟩ := ih b k hk
        refine ⟨hb, ?_⟩
        intro m hm hm1 hm2
        rcases List.mem_cons.1 hm with rfl | hm3
        · exact hl
        · exact hrest m hm3 hm1 hm2
    · rw [cap_loop_cons_other h] at hk ⊢
      obtain ⟨hb, hrest⟩ := ih b k hk
      refine ⟨hb, ?_⟩
      intro m hm hm1 hm2
      rcases List.mem_cons.1 hm with rfl | hm3
      · exact absurd ⟨hm1, hm2⟩ h
      · exact hrest m hm3 hm1 hm2

theorem cap_loop_preserve (c : Stone) :
    ∀ (l : List Point) (b : Board) (k : Nat) (q : Point), state_at b q = c →
      state_at (cap_loop c l b k).1 q = c := by
  intro l
  induction l with
  | nil => intro b k q hq; exact hq
  | cons n rest ih =>
    intro b k q hq
    by_cases h : state_at b n ≠ EMPTY ∧ state_at b n ≠ c
    · rcases (Bool.eq_false_or_eq_true (has_liberties b n ∅)).symm with hl | hl
      · rw [cap_loop_cons_cap h hl]
        refine ih _ _ q ?_
        have hq2 : q ∉ group_at b n := by
          intro hq2
          have h2 := group_colour q hq2
          rw [hq] at h2
          exact h.2 h2.symm
        rw [state_at_destroy_not_mem hq2]
        exact hq
      · rw [cap_loop_cons_lib h hl]
        exact ih b k q hq
    · rw [cap_loop_cons_other h]
      exact ih b k q hq

theorem cap_loop_liberty (c : Stone) :
    ∀ (l : List Point) (b : Board) (k : Nat) (n : Point), n ∈ l →
      state_at (cap_loop c l b k).1 n ≠ EMPTY →
      state_at (cap_loop c l b k).1 n ≠ c →
      has_liberties (cap_loop c l b k).1 n ∅ = true := by
  intro l
  induction l with
  | nil => intro b k n hn; exact absurd hn (by simp)
  | cons m rest ih =>
    intro b k n hn hne hnc
    by_cases h : state_at b m ≠ EMPTY ∧ state_at b m ≠ c
    · rcases (Bool.eq_false_or_eq_true (has_liberties b m ∅)).symm with hl | hl
      · rw [cap_loop_cons_cap h hl] at hne hnc ⊢
        rcases List.mem_cons.1 hn with rfl | hn2
        · have hme : state_at (destroy_group b n).1 n = EMPTY :=
            state_at_destroy_mem (mem_group_self h.1)
          rcases cap_loop_emptied c rest (destroy_group b n).1
              (k + (destroy_group b n).2) n with h2 | h2
          · rw [hme] at h2
            exact absurd h2 hne
          · exact absurd h2 hne
        · exact ih _ _ n hn2 hne hnc
      · rw [cap_loop_cons_lib h hl] at hne hnc ⊢
        rcases List.mem_cons.1 hn with rfl | hn2
        · have hfb : state_at (cap_loop c rest b k).1 n = state_at b n := by
            rcases cap_loop_emptied c rest b k n with h2 | h2
            · exact h2
            · exact absurd h2 hne
          have hreach : ReachLib b (state_at b n) ∅ n := has_liberties_sound hl
          have hreach2 : ReachLib (cap_loop c rest b k).1 (state_at b n) ∅ n :=
            hreach.of_emptied (cap_loop_emptied c rest b k)
          refine has_liberties_of_reach hne ?_
          rw [hfb]
          exact hreach2
        · exact ih b k n hn2 hne hnc
    · rw [cap_loop_cons_other h] at hne hnc ⊢
      rcases List.mem_cons.1 hn with rfl | hn2
      · have hfb : state_at (cap_loop c rest b k).1 n = state_at b n := by
          rcases cap_loop_emptied c rest b k n with h2 | h2
          · exact h2
          · exact absurd h2 hne
        rw [hfb] at hne hnc
        exact absurd ⟨hne, hnc⟩ h
      · exact ih b k n hn2 hne hnc

theorem cap_loop_caps_ne (c : Stone) :
    ∀ (l : List Point) (b : Board) (k : Nat), (cap_loop c l b k).2 ≠ k →
      ∃ n ∈ l, state_at (cap_loop c l b k).1 n = EMPTY := by
  intro l
  induction l with
  | nil => intro b k hk; exact absurd rfl hk
  | cons n rest ih =>
    intro b k hk
    by_cases h : state_at b n ≠ EMPTY ∧ state_at b n ≠ c
    · rcases (Bool.eq_false_or_eq_true (has_liberties b n ∅)).symm with hl | hl
      · rw [cap_loop_cons_cap h hl]
        refine ⟨n, List.mem_cons_self n rest, ?_⟩
        have hme : state_at (destroy_group b n).1 n = EMPTY :=
          state_at_destroy_mem (mem_group_self h.1)
        rcases cap_loop_emptied c rest (destroy_group b n).1
            (k + (destroy_group b n).2) n with h2 | h2
        · rw [hme] at h2
          exact h2
        · exact h2
      · rw [cap_loop_cons_lib h hl] at hk ⊢
        obtain ⟨m, hm, hm2⟩ := ih b k hk
        exact ⟨m, List.mem_cons_of_mem n hm, hm2⟩
    · rw [cap_loop_cons_other h] at hk ⊢
      obtain ⟨m, hm, hm2⟩ := ih b k hk
      exact ⟨m, List.mem_cons_of_mem n hm, hm2⟩

/-! ## Characterizing `legal_move` -/

theorem lm_loop1_iff {b : Board} :
    ∀ l : List Point, lm_loop1 b l = true ↔ ∃ n ∈ l, state_at b n = EMPTY := by
  intro l
  induction l with
  | nil => simp [lm_loop1]
  | cons n rest ih =>
    by_cases hne : state_at b n = EMPTY
    · simp [lm_loop1, hne]
    · simp only [lm_loop1, if_neg hne, ih]
      constructor
      · rintro ⟨m, hm, hm2⟩
        exact ⟨m, List.mem_cons_of_mem n hm, hm2⟩
      · rintro ⟨m, hm, hm2⟩
        rcases List.mem_cons.1 hm with rfl | hm3
        · exact absurd hm2 hne
        · exact ⟨m, hm3, hm2⟩

theorem lm_loop2_iff {b : Board} {pl : Stone} {s : Point} :
    ∀ l : List Point, lm_loop2 b pl s l = true ↔
      ∃ n ∈ l, (state_at b n = pl ∧ has_liberties b n {s} = true) ∨
        (state_at b n ≠ pl ∧ state_at b n ≠ EMPTY ∧
          has_liberties b n {s} = false) := by
  intro l
  induction l with
  | nil => simp [lm_loop2]
  | cons n rest ih =>
    constructor
    · intro h
      simp only [lm_loop2] at h
      split at h
      · rename_i hpl
        split at h
        · exact ⟨n, List.mem_cons_self n rest, Or.inl ⟨hpl, by assumption⟩⟩
        · obtain ⟨m, hm, hm2⟩ := ih.1 h
          exact ⟨m, List.mem_cons_of_mem n hm, hm2⟩
      · rename_i hpl
        split at h
        · rename_i hne
          split at h
          · rename_i hlf
            exact ⟨n, List.mem_cons_self n rest, Or.inr ⟨hpl, hne, hlf⟩⟩
          · obtain ⟨m, hm, hm2⟩ := ih.1 h
            exact ⟨m, List.mem_cons_of_mem n hm, hm2⟩
        · obtain ⟨m, hm, hm2⟩ := ih.1 h
          exact ⟨m, List.mem_cons_of_mem n hm, hm2⟩
    · rintro ⟨m, hm, hm2⟩
      rcases List.mem_cons.1 hm with rfl | hm3
      · rcases hm2 with ⟨hpl, hlib⟩ | ⟨hpl, hne, hlib⟩
        · simp [lm_loop2, hpl, hlib]
        · simp [lm_loop2, if_neg hpl, hne, hlib]
      · have h2 : lm_loop2 b pl s rest = true := ih.2 ⟨m, hm3, hm2⟩
        simp only [lm_loop2]
        split
        · split
          · rfl
          · exact h2
        · split
          · split
            · rfl
            · exact h2
          · exact h2

theorem legal_move_cases {st : GameState} {s : Point}
    (h : legal_move st s = true) :
    in_bounds s ∧ state_at st.board s = EMPTY ∧ st.ko ≠ some s ∧
      ((∃ n ∈ neighbours s, state_at st.board n = EMPTY) ∨
       (∃ n ∈ neighbours s, state_at st.board n = st.player ∧
          has_liberties st.board n {s} = true) ∨
       (∃ n ∈ neighbours s, state_at st.board n ≠ st.player ∧
          state_at st.board n ≠ EMPTY ∧
          has_liberties st.board n {s} = false)) := by
  by_cases hgate : ¬ in_bounds s ∨ state_at st.board s ≠ EMPTY ∨ st.ko = some s
  · rw [legal_move, if_pos hgate] at h
    cases h
  · push_neg at hgate
    obtain ⟨h1, h2, h3⟩ := hgate
    refine ⟨h1, h2, h3, ?_⟩
    rw [legal_move, if_neg (by push_neg; exact ⟨h1, h2, h3⟩)] at h
    split at h
    · rename_i hl1
      exact Or.inl ((lm_loop1_iff (neighbours s)).1 hl1)
    · obtain ⟨m, hm, hm2⟩ := (lm_loop2_iff (neighbours s)).1 h
      rcases hm2 with ⟨hpl, hlib⟩ | ⟨hpl, hne, hlib⟩
      · exact Or.inr (Or.inl ⟨m, hm, hpl, hlib⟩)
      · exact Or.inr (Or.inr ⟨m, hm, hpl, hne, hlib⟩)

/-- C1 — Suicide prevention: if placing the active player's stone at `p`
would capture nothing (the capture counter of `play` stays 0) and leave
the placed stone's group with no liberties (no liberty is reachable from
`p` on the board with the stone placed), then `legal_move` rejects `p`. -/
theorem C1_suicide_prevention (st : GameState) (p : Point)
    (hpl : st.player ≠ EMPTY)
    (hcaps : play_caps st p = 0)
    (hsui : ¬ ReachLib (place st.board p st.player) st.player ∅ p) :
    legal_move st p = false := by
  rcases Bool.eq_false_or_eq_true (legal_move st p) with h2 | h2
  swap
  · exact h2
  exfalso
  obtain ⟨hib, hemp, hko, hcase⟩ := legal_move_cases h2
  have hb1p : state_at (place st.board p st.player) p = st.player :=
    state_at_place_self hib
  have hreach : ReachLib (place st.board p st.player) st.player ∅ p := by
    rcases hcase with ⟨n, hn, hne⟩ | ⟨n, hn, hnc, hlib⟩ | ⟨n, hn, hnp, hnee, hlib⟩
    · exact reachlib_place_lib hn hne
    · have hr := hl_aux_sound st.board 362 n {p} hlib
      rw [hnc] at hr
      exact reachlib_place_friendly hn hnc hr
    · exfalso
      obtain ⟨hb1, hall⟩ := cap_loop_caps_eq st.player (neighbours p)
        (place st.board p st.player) 0 hcaps
      have hnp2 : n ≠ p := by
        intro he
        rw [he, hemp] at hnee
        exact hnee rfl
      have hb1n : state_at (place st.board p st.player) n = state_at st.board n :=
        state_at_place_ne hnp2
      have hlibs := hall n hn (by rw [hb1n]; exact hnee) (by rw [hb1n]; exact hnp)
      have hr1 : ReachLib (place st.board p st.player)
          (state_at (place st.board p st.player) n) ∅ n :=
        has_liberties_sound hlibs
      have hnotr : ¬ ReachLib st.board (state_at st.board n) {p} n := by
        intro hr
        have h3 := (has_liberties_iff hnee
          (show n ∉ ({p} : Finset Point) by simp [hnp2])).2 hr
        rw [h3] at hlib
        cases hlib
      apply hnotr
      rw [hb1n] at hr1
      exact (reachlib_place_enemy hpl hnp).2 hr1
  exact hsui hreach

theorem C1_suicide_prevention_witness :
    legal_move stC1 ((0 : Int), (0 : Int)) = false :=
  C1_suicide_prevention stC1 ((0 : Int), (0 : Int)) (by decide) (by decide)
    (fun hr =>
      absurd
        ((has_liberties_iff
            (show state_at (place stC1.board ((0 : Int), (0 : Int)) stC1.player)
                ((0 : Int), (0 : Int)) ≠ EMPTY by decide)
            (show ((0 : Int), (0 : Int)) ∉ (∅ : Finset Point) by simp)).2 hr)
        (show ¬ has_liberties
            (place stC1.board ((0 : Int), (0 : Int)) stC1.player)
            ((0 : Int), (0 : Int)) ∅ = true by decide))

theorem play_oob {st : GameState} {p : Point} (h : ¬ in_bounds p) :
    play st p =
      { board := st.board, player := next_player st.player, ko := none } := by
  simp only [play]
  rw [if_pos h]

theorem play_ib {st : GameState} {p : Point} (h : in_bounds p) :
    play st p =
      { board := play_b3 st p, player := next_player st.player,
        ko := play_ko_val st p } := by
  simp only [play]
  rw [if_neg (fun hc => hc h)]
  rfl

theorem emptied_b2_b3 (st : GameState) (p : Point) :
    emptied (play_b2 st p) (play_b3 st p) := by
  rw [play_b3]
  split
  · exact emptied_refl _
  · exact emptied_destroy _ _

/-- C2 — Capture correctness: after a legal move at an in-bounds empty
point `p`, every opponent stone still adjacent to `p` belongs to a group
with at least one liberty. -/
theorem C2_capture_correctness (st : GameState) (p : Point)
    (hib : in_bounds p) (_hemp : state_at st.board p = EMPTY)
    (_hleg : legal_move st p = true) :
    ∀ n ∈ neighbours p, state_at (play st p).board n ≠ EMPTY →
      state_at (play st p).board n ≠ st.player →
      has_liberties (play st p).board n ∅ = true ∧
        ReachLib (play st p).board (state_at (play st p).board n) ∅ n := by
  intro n hn hne hnc
  rw [play_ib hib] at hne hnc ⊢
  simp only at hne hnc ⊢
  have hfb : state_at (play_b3 st p) n = state_at (play_b2 st p) n := by
    rcases emptied_b2_b3 st p n with h2 | h2
    · exact h2
    · exact absurd h2 hne
  have hlib2 : has_liberties (play_b2 st p) n ∅ = true := by
    refine cap_loop_liberty st.player (neighbours p) (play_b1 st p) 0 n hn ?_ ?_
    · rw [play_b2] at hfb
      rw [hfb] at hne
      exact hne
    · rw [play_b2] at hfb
      rw [hfb] at hnc
      exact hnc
  have hr2 : ReachLib (play_b2 st p) (state_at (play_b2 st p) n) ∅ n :=
    has_liberties_sound hlib2
  have hr3 : ReachLib (play_b3 st p) (state_at (play_b3 st p) n) ∅ n := by
    rw [hfb]
    exact hr2.of_emptied (emptied_b2_b3 st p)
  exact ⟨has_liberties_of_reach hne hr3, hr3⟩

theorem C2_capture_correctness_witness :
    has_liberties (play stKo ((2 : Int), (1 : Int))).board
        ((3 : Int), (1 : Int)) ∅ = true ∧
      ReachLib (play stKo ((2 : Int), (1 : Int))).board
        (state_at (play stKo ((2 : Int), (1 : Int))).board ((3 : Int), (1 : Int)))
        ∅ ((3 : Int), (1 : Int)) :=
  C2_capture_correctness stKo ((2 : Int), (1 : Int)) (by decide) (by decide)
    (by decide) ((3 : Int), (1 : Int)) (by decide) (by decide) (by decide)

/-! ## Ko detection (`play` step 6) -/

/-- After a move that captured at least one stone, the placed stone is
still on the board (the suicide branch of `play` cannot fire, because a
captured adjacent group has vacated one of the placed stone's
neighbours). -/
theorem play_survives (st : GameState) (p : Point) (hib : in_bounds p)
    (hpl : st.player ≠ EMPTY) (hcaps : play_caps st p ≠ 0) :
    play_b3 st p = play_b2 st p ∧
      state_at (play_b3 st p) p = st.player := by
  have hb1p : state_at (play_b1 st p) p = st.player := state_at_place_self hib
  have hb2p : state_at (play_b2 st p) p = st.player :=
    cap_loop_preserve st.player (neighbours p) (play_b1 st p) 0 p hb1p
  obtain ⟨n, hn, hne⟩ :=
    cap_loop_caps_ne st.player (neighbours p) (play_b1 st p) 0 hcaps
  have hreach : ReachLib (play_b2 st p) (state_at (play_b2 st p) p) ∅ p := by
    rw [hb2p]
    exact ReachLib.lib hn (by simp) hne
  have hlib : has_liberties (play_b2 st p) p ∅ = true :=
    has_liberties_of_reach (by rw [hb2p]; exact hpl) hreach
  have hb3 : play_b3 st p = play_b2 st p := by
    rw [play_b3, if_pos hlib]
  refine ⟨hb3, ?_⟩
  rw [hb3]
  exact hb2p

theorem ols_loop_no_col {b : Board} {c : Stone} :
    ∀ (l : List Point) (k : Nat), (∀ n ∈ l, state_at b n ≠ c) →
      ols_loop b c l k =
        some (k + (l.filter (fun n => state_at b n == EMPTY)).length) := by
  intro l
  induction l with
  | nil => intro k _; simp [ols_loop]
  | cons n rest ih =>
    intro k hno
    have hn : state_at b n ≠ c := hno n (List.mem_cons_self n rest)
    have hrest : ∀ m ∈ rest, state_at b m ≠ c :=
      fun m hm => hno m (List.mem_cons_of_mem n hm)
    by_cases hne : state_at b n = EMPTY
    · rw [ols_loop, if_neg hn, if_pos hne, ih (k + 1) hrest]
      simp [List.filter_cons, hne]
      omega
    · rw [ols_loop, if_neg hn, if_neg hne, ih k hrest]
      simp [List.filter_cons, hne]

theorem ols_loop_col {b : Board} {c : Stone} :
    ∀ (l : List Point) (k : Nat), (∃ n ∈ l, state_at b n = c) →
      ols_loop b c l k = none := by
  intro l
  induction l with
  | nil => intro k h; simp at h
  | cons n rest ih =>
    intro k hex
    by_cases hn : state_at b n = c
    · rw [ols_loop, if_pos hn]
    · have hex2 : ∃ m ∈ rest, state_at b m = c := by
        obtain ⟨m, hm, hm2⟩ := hex
        rcases List.mem_cons.1 hm with rfl | hm3
        · exact absurd hm2 hn
        · exact ⟨m, hm3, hm2⟩
      by_cases hne : state_at b n = EMPTY
      · rw [ols_loop, if_neg hn, if_pos hne, ih (k + 1) hex2]
      · rw [ols_loop, if_neg hn, if_neg hne, ih k hex2]

/-- `one_liberty_singleton` holds exactly when the stone has no
same-colour neighbour and exactly one empty neighbour. -/
theorem one_liberty_singleton_iff {b : Board} {s : Point}
    (hse : state_at b s ≠ EMPTY) :
    one_liberty_singleton b s = true ↔
      (∀ n ∈ neighbours s, state_at b n ≠ state_at b s) ∧
        ((neighbours s).filter
          (fun n => state_at b n == EMPTY)).length = 1 := by
  rw [one_liberty_singleton]
  simp only [if_neg hse]
  by_cases hex : ∃ n ∈ neighbours s, state_at b n = state_at b s
  · rw [ols_loop_col (neighbours s) 0 hex]
    simp only [Bool.false_eq_true, false_iff, not_and]
    intro hno
    obtain ⟨n, hn, hn2⟩ := hex
    exact absurd hn2 (hno n hn)
  · push_neg at hex
    rw [ols_loop_no_col (neighbours s) 0 hex]
    simp only [Nat.zero_add, beq_iff_eq]
    constructor
    · intro h
      exact ⟨hex, h⟩
    · intro h
      exact h.2

theorem find?_of_filter_singleton {α : Type} {pred : α → Bool} :
    ∀ (l : List α) (a : α), l.filter pred = [a] → l.find? pred = some a := by
  intro l
  induction l with
  | nil => intro a h; simp at h
  | cons x rest ih =>
    intro a h
    rcases hx : pred x with hpx | hpx
    · rw [List.filter_cons_of_neg (by simp [hx])] at h
      rw [List.find?_cons_of_neg _ (by simp [hx])]
      exact ih a h
    · rw [List.filter_cons_of_pos (by simp [hx])] at h
      rw [List.cons.injEq] at h
      obtain ⟨rfl, h3⟩ := h
      rw [List.find?_cons_of_pos _ (by simp [hx])]

/-- C3 — Ko detection: after playing at an in-bounds point `p`, the ko
point is `q` exactly when the move captured exactly one stone and the
played stone ends with no same-colour neighbour and `q` as its unique
empty neighbour; in every other case the ko point is `none`. -/
theorem C3_ko_detection (st : GameState) (p q : Point)
    (hib : in_bounds p) (hpl : st.player ≠ EMPTY) :
    (play st p).ko = some q ↔
      (play_caps st p = 1 ∧
       (∀ n ∈ neighbours p, state_at (play st p).board n ≠ st.player) ∧
       (neighbours p).filter
         (fun n => state_at (play st p).board n == EMPTY) = [q]) := by
  rw [play_ib hib]
  show play_ko_val st p = some q ↔
    (play_caps st p = 1 ∧
     (∀ n ∈ neighbours p, state_at (play_b3 st p) n ≠ st.player) ∧
     (neighbours p).filter
       (fun n => state_at (play_b3 st p) n == EMPTY) = [q])
  rw [play_ko_val]
  by_cases hc : play_caps st p = 1
  · rw [if_pos hc]
    obtain ⟨hb32, hb3p⟩ := play_survives st p hib hpl (by rw [hc]; omega)
    have hb3ne : state_at (play_b3 st p) p ≠ EMPTY := by
      rw [hb3p]
      exact hpl
    have hiff := one_liberty_singleton_iff hb3ne
    by_cases hols : one_liberty_singleton (play_b3 st p) p = true
    · rw [if_pos hols]
      obtain ⟨hnosame, hlen⟩ := hiff.1 hols
      obtain ⟨a, ha⟩ := List.length_eq_one.1 hlen
      have hfind : empty_neighbour (play_b3 st p) p = some a := by
        rw [empty_neighbour]
        exact find?_of_filter_singleton _ a ha
      rw [hfind]
      constructor
      · intro hsome
        have haq : a = q := by
          injection hsome
        subst haq
        refine ⟨hc, ?_, ha⟩
        intro n hn
        have h2 := hnosame n hn
        rw [hb3p] at h2
        exact h2
      · rintro ⟨_, _, hfil⟩
        rw [ha] at hfil
        injection hfil with h1 h2
        rw [h1]
    · rw [if_neg hols]
      constructor
      · intro h
        cases h
      · rintro ⟨_, hnosame, hfil⟩
        exfalso
        apply hols
        refine hiff.2 ⟨?_, ?_⟩
        · intro n hn
          rw [hb3p]
          exact hnosame n hn
        · rw [hfil]
          rfl
  · rw [if_neg hc]
    constructor
    · intro h
      cases h
    · rintro ⟨h1, _, _⟩
      exact absurd h1 hc

theorem C3_ko_detection_witness :
    (play stKo ((2 : Int), (1 : Int))).ko = some ((1 : Int), (1 : Int)) :=
  (C3_ko_detection stKo ((2 : Int), (1 : Int)) ((1 : Int), (1 : Int))
    (by decide) (by decide)).mpr (by decide)

/-! ## The remaining claims on `legal_move`, `play` and the queries -/

/-- C4 — `legal_move` returns false when the point is out of bounds,
occupied, or equal to the ko point (and, being a total function, it
never fails on any input). -/
theorem C4_legal_move_guards (st : GameState) (p : Point)
    (h : ¬ in_bounds p ∨ state_at st.board p ≠ EMPTY ∨ st.ko = some p) :
    legal_move st p = false := by
  rw [legal_move, if_pos h]

theorem C4_legal_move_guards_witness :
    legal_move init_state ((-1 : Int), (0 : Int)) = false ∧
    legal_move stKo ((1 : Int), (1 : Int)) = false ∧
    legal_move { board := bKo, player := WHITE, ko := some ((5 : Int), (5 : Int)) }
      ((5 : Int), (5 : Int)) = false :=
  ⟨C4_legal_move_guards _ _ (Or.inl (by decide)),
   C4_legal_move_guards _ _ (Or.inr (Or.inl (by decide))),
   C4_legal_move_guards _ _ (Or.inr (Or.inr (by decide)))⟩

/-- C5 — Pass behaviour: a `play` on an out-of-bounds point clears the ko
point, flips the active player and leaves the board untouched; doing it
twice restores the original active player and the original board. -/
theorem C5_pass_idempotence (st : GameState) (p : Point)
    (hoob : ¬ in_bounds p) (hpl : st.player = BLACK ∨ st.player = WHITE) :
    play st p =
      { board := st.board, player := next_player st.player, ko := none } ∧
    (play (play st p) p).board = st.board ∧
    (play (play st p) p).player = st.player := by
  have h1 := @play_oob st p hoob
  refine ⟨h1, ?_, ?_⟩
  · rw [h1, play_oob hoob]
  · rw [h1, play_oob hoob]
    simp only
    rcases hpl with h | h <;> rw [h] <;> rfl

theorem C5_pass_idempotence_witness :
    play stKo ((-3 : Int), (7 : Int)) =
      { board := stKo.board, player := next_player stKo.player, ko := none } ∧
    (play (play stKo ((-3 : Int), (7 : Int))) ((-3 : Int), (7 : Int))).board =
      stKo.board ∧
    (play (play stKo ((-3 : Int), (7 : Int))) ((-3 : Int), (7 : Int))).player =
      stKo.player :=
  C5_pass_idempotence stKo ((-3 : Int), (7 : Int)) (by decide) (Or.inl rfl)

/-- C9 — `state_at` is total: out of bounds it returns `EMPTY`, in
bounds it returns exactly the stored stone. -/
theorem C9_state_at_total (b : Board) (p : Point) :
    (¬ in_bounds p → state_at b p = EMPTY) ∧
    (in_bounds p → state_at b p = b p) :=
  ⟨state_at_oob, state_at_ib⟩

theorem C9_state_at_total_witness :
    state_at bKo ((19 : Int), (0 : Int)) = EMPTY ∧
    state_at bKo ((1 : Int), (1 : Int)) = bKo ((1 : Int), (1 : Int)) :=
  ⟨(C9_state_at_total bKo ((19 : Int), (0 : Int))).1 (by decide),
   (C9_state_at_total bKo ((1 : Int), (1 : Int))).2 (by decide)⟩

/-- Whatever the state played from, a ko point set by `play` is an
in-bounds empty point of the resulting board. -/
theorem play_ko_inv (st : GameState) (p q : Point)
    (h : (play st p).ko = some q) :
    in_bounds q ∧ state_at (play st p).board q = EMPTY := by
  by_cases hib : in_bounds p
  · rw [play_ib hib] at h ⊢
    simp only at h ⊢
    rw [play_ko_val] at h
    split at h
    · split at h
      · rw [empty_neighbour] at h
        have hmem := List.mem_of_find?_eq_some h
        have hpred := List.find?_some h
        rw [beq_iff_eq] at hpred
        exact ⟨in_bounds_of_mem_neighbours hmem, hpred⟩
      · cases h
    · cases h
  · rw [play_oob hib] at h
    cases h

/-- C10 — Ko-point invariant: in every state reachable from the initial
state by legal moves and passes, the ko point is `none` or an in-bounds
empty point. -/
theorem C10_ko_invariant (st : GameState) (h : Reachable st) : KoInv st := by
  induction h with
  | init => trivial
  | step_play hst hleg ih =>
    rename_i st2 p2
    rw [KoInv]
    rcases hko : (play st2 p2).ko with _ | q
    · trivial
    · exact play_ko_inv st2 p2 q hko
  | step_pass hst hoob ih =>
    rename_i st2 p2
    rw [KoInv]
    rcases hko : (play st2 p2).ko with _ | q
    · trivial
    · exact play_ko_inv st2 p2 q hko

theorem C10_ko_invariant_witness :
    KoInv (play init_state ((0 : Int), (0 : Int))) :=
  C10_ko_invariant _ (Reachable.step_play Reachable.init (by decide))

/-- C8 counterexample — in `minimal_goban.js`, `has_liberties` called on
an Empty point with an empty visited set returns true as soon as the
point has an empty neighbour, so it is not false on every Empty point. -/
theorem C8_counterexample :
    state_at init_state.board ((0 : Int), (0 : Int)) = EMPTY ∧
    has_liberties init_state.board ((0 : Int), (0 : Int)) ∅ = true := by
  constructor
  · decide
  · decide

/-- C8 (amended) — the `has_liberties` wrapper of the variant source file
(`part_000`), which guards on an Empty point, returns false on every
Empty point. -/
theorem C8_amended_guard (b : Board) (p : Point)
    (h : state_at b p = EMPTY) : PartZero.has_liberties b p = false := by
  rw [PartZero.has_liberties, if_pos h]

theorem C8_amended_guard_witness :
    PartZero.has_liberties init_state.board ((0 : Int), (0 : Int)) = false :=
  C8_amended_guard init_state.board ((0 : Int), (0 : Int)) (by decide)

/-- C7 — Group enumeration: `group_at` returns the empty set on an empty
cell, the maximal 4-connected same-colour component on a stone, and its
result does not depend on which member of the group seeds the search. -/
theorem C7_group_enumeration (b : Board) (p : Point) :
    (state_at b p = EMPTY → group_at b p = ∅) ∧
    (state_at b p ≠ EMPTY → ∀ x, x ∈ group_at b p ↔
      Relation.ReflTransGen (adjC b (state_at b p)) p x) ∧
    (∀ q ∈ group_at b p, group_at b q = group_at b p) := by
  refine ⟨group_at_empty, fun hse x => group_at_iff hse x, ?_⟩
  intro q hq
  by_cases hse : state_at b p = EMPTY
  · rw [group_at_empty hse] at hq
    exact absurd hq (by simp)
  · have hreach := (group_at_iff hse q).1 hq
    have hqc : state_at b q = state_at b p := group_colour q hq
    have hqne : state_at b q ≠ EMPTY := by
      rw [hqc]
      exact hse
    ext x
    rw [group_at_iff hqne x, group_at_iff hse x, hqc]
    constructor
    · intro hx
      exact Relation.ReflTransGen.trans hreach hx
    · intro hx
      exact Relation.ReflTransGen.trans (reach_symm rfl hreach) hx

theorem C7_group_enumeration_witness :
    group_at bChain ((5 : Int), (3 : Int)) = group_at bChain ((3 : Int), (3 : Int)) ∧
    group_at bChain ((9 : Int), (9 : Int)) = ∅ :=
  ⟨(C7_group_enumeration bChain ((3 : Int), (3 : Int))).2.2 ((5 : Int), (3 : Int))
      (by decide),
   (C7_group_enumeration bChain ((9 : Int), (9 : Int))).1 (by decide)⟩

theorem hl_goS_eq {f : Nat}
    {recS : Point → Finset Point → GameState → (Bool × Finset Point) × GameState}
    (hrec : ∀ n t2 st2, recS n t2 st2 = (hl_aux st2.board f n t2, st2))
    (c : Stone) :
    ∀ (l : List Point) (t : Finset Point) (st : GameState),
      hl_goS recS c l t st = (hl_go st.board (hl_aux st.board f) c l t, st) := by
  intro l
  induction l with
  | nil => intro t st; rfl
  | cons n rest ih =>
    intro t st
    by_cases hnt : n ∈ t
    · rw [hl_go_cons_mem hnt]
      simp only [hl_goS, if_pos hnt]
      exact ih t st
    · by_cases hne : state_at st.board n = EMPTY
      · rw [hl_go_cons_empty hnt hne]
        simp only [hl_goS, if_neg hnt, state_atS, if_pos hne]
      · by_cases hcol : state_at st.board n = c
        · rcases hr : hl_aux st.board f n t with ⟨r, t2⟩
          cases r
          · rw [hl_go_cons_rec_false hnt hne hcol hr]
            simp only [hl_goS, if_neg hnt, state_atS, if_neg hne, if_pos hcol,
              hrec n t st, hr]
            exact ih t2 st
          · rw [hl_go_cons_rec_true hnt hne hcol hr]
            simp only [hl_goS, if_neg hnt, state_atS, if_neg hne, if_pos hcol,
              hrec n t st, hr]
        · rw [hl_go_cons_other hnt hne hcol]
          simp only [hl_goS, if_neg hnt, state_atS, if_neg hne, if_neg hcol]
          exact ih t st

theorem hl_auxS_eq :
    ∀ (f : Nat) (s : Point) (t : Finset Point) (st : GameState),
      hl_auxS f s t st = (hl_aux st.board f s t, st) := by
  intro f
  induction f with
  | zero => intro s t st; rfl
  | succ f ih =>
    intro s t st
    simp only [hl_auxS, state_atS, hl_aux]
    exact hl_goS_eq (fun n t2 st2 => ih n t2 st2) (state_at st.board s)
      (neighbours s) (insert s t) st

theorem has_libertiesS_eq (st : GameState) (s : Point) (t : Finset Point) :
    has_libertiesS st s t = (has_liberties st.board s t, st) := by
  rw [has_libertiesS, hl_auxS_eq]
  rfl

theorem lm_loop1S_eq :
    ∀ (l : List Point) (st : GameState),
      lm_loop1S l st = (lm_loop1 st.board l, st) := by
  intro l
  induction l with
  | nil => intro st; rfl
  | cons n rest ih =>
    intro st
    by_cases hne : state_at st.board n = EMPTY
    · simp only [lm_loop1S, state_atS, lm_loop1, if_pos hne]
    · simp only [lm_loop1S, state_atS, lm_loop1, if_neg hne]
      exact ih st

theorem lm_loop2S_eq (pl : Stone) (s : Point) :
    ∀ (l : List Point) (st : GameState),
      lm_loop2S pl s l st = (lm_loop2 st.board pl s l, st) := by
  intro l
  induction l with
  | nil => intro st; rfl
  | cons n rest ih =>
    intro st
    by_cases hpl : state_at st.board n = pl
    · simp only [lm_loop2S, state_atS, lm_loop2, if_pos hpl, has_libertiesS_eq]
      cases hl : has_liberties st.board n {s}
      · simp [ih st]
      · simp
    · by_cases hne : state_at st.board n = EMPTY
      · have hne2 : ¬ state_at st.board n ≠ EMPTY := fun hc => hc hne
        simp only [lm_loop2S, state_atS, lm_loop2, if_neg hpl, if_neg hne2]
        exact ih st
      · simp only [lm_loop2S, state_atS, lm_loop2, if_neg hpl, if_pos hne,
          has_libertiesS_eq]
        cases hl : has_liberties st.board n {s}
        · simp
        · simp [ih st]

/-- C6 — `isLegalMove` is a pure query: run with the game state threaded
through every read, it returns the state it was given unchanged, and
computes the same answer as the pure function. -/
theorem C6_legal_move_pure (st : GameState) (p : Point) :
    (legal_moveS st p).2 = st ∧ (legal_moveS st p).1 = legal_move st p := by
  simp only [legal_moveS, legal_move, state_atS]
  by_cases hgate : ¬ in_bounds p ∨ state_at st.board p ≠ EMPTY ∨ st.ko = some p
  · rw [if_pos hgate, if_pos hgate]
    exact ⟨rfl, rfl⟩
  · rw [if_neg hgate, if_neg hgate]
    rw [lm_loop1S_eq]
    cases h1 : lm_loop1 st.board (neighbours p)
    · show (lm_loop2S st.player p (neighbours p) st).2 = st ∧
        (lm_loop2S st.player p (neighbours p) st).1 =
          lm_loop2 st.board st.player p (neighbours p)
      rw [lm_loop2S_eq]
      exact ⟨rfl, rfl⟩
    · exact ⟨rfl, rfl⟩
